import Mathlib

/-!
Verification of the R2 storage service module (`r2Service`): a shallow
embedding of its hashing helpers, AWS SigV4 signing engine, retry policy,
single/multipart upload orchestration, presigned URL generator and bucket
CORS client, together with proofs and refutations of the specified
properties.

Bytes are modelled as `Nat` (values 0..255), buffers as `List Nat`,
JavaScript strings as Lean `String`.  The SHA-256 and HMAC primitives come
from the platform (`crypto.subtle`), not from this repository, so the
development is parameterised by an abstract `HashModel`; everything the
module builds around those primitives (hex rendering, UTF-8 encoding,
canonical requests, key-derivation chain) is embedded concretely.
-/

namespace R2

/-! ## JavaScript string and byte primitives -/

/-- Characters matched by the JavaScript regular-expression class `\s`
(whitespace), used by `sanitizeFileName` and `String.prototype.trim`. -/
def isJsSpace (c : Char) : Bool :=
  let n := c.toNat
  n = 0x9 || n = 0xa || n = 0xb || n = 0xc || n = 0xd || n = 0x20 ||
  n = 0xa0 || n = 0x1680 || (0x2000 ≤ n && n ≤ 0x200a) || n = 0x2028 ||
  n = 0x2029 || n = 0x202f || n = 0x205f || n = 0x3000 || n = 0xfeff

/-- UTF-8 encoding of one Unicode scalar value, as produced by
JavaScript `TextEncoder`. -/
def utf8Bytes (c : Char) : List Nat :=
  let n := c.toNat
  if n < 0x80 then [n]
  else if n < 0x800 then [0xc0 + n / 0x40, 0x80 + n % 0x40]
  else if n < 0x10000 then
    [0xe0 + n / 0x1000, 0x80 + n / 0x40 % 0x40, 0x80 + n % 0x40]
  else
    [0xf0 + n / 0x40000, 0x80 + n / 0x1000 % 0x40, 0x80 + n / 0x40 % 0x40,
     0x80 + n % 0x40]

/-- `TextEncoder.encode`: UTF-8 bytes of a string. -/
def utf8Encode (s : String) : List Nat :=
  (s.data.map utf8Bytes).flatten

/-- Lower-case hexadecimal digit, as produced by
`Number.prototype.toString(16)`. -/
def hexDigitChar (n : Nat) : Char :=
  if n < 10 then Char.ofNat (48 + n) else Char.ofNat (87 + n)

/-- `b.toString(16).padStart(2, c0)` where `c0` is the zero digit:
two lower-case hex digits of a byte. -/
def byteToHex (b : Nat) : String :=
  String.mk [hexDigitChar (b / 16 % 16), hexDigitChar (b % 16)]

/-- Hex rendering of a byte buffer (the `Array.from(..).map(..).join`
idiom used by `sha256` and `hmacSha256`). -/
def toHexString (bs : List Nat) : String :=
  String.join (bs.map byteToHex)

/-- `String.prototype.trim` (strips JavaScript whitespace at both ends). -/
def jsTrim (s : String) : String :=
  String.mk (((s.data.dropWhile isJsSpace).reverse.dropWhile isJsSpace).reverse)

/-! ## The retry policy (source lines 457-470)

A fallible asynchronous operation is modelled by the stream of outcomes of
its successive invocations: `fn i` is what the `(i+1)`-st call to the
operation would produce.  `RetryTrace` records the final outcome together
with how many times the operation was invoked and which sleeps were
performed between attempts. -/

/-- Observable behaviour of one run of `retry`. -/
structure RetryTrace (ε α : Type) where
  result : Except ε α
  calls : Nat
  sleeps : List Nat

/-- The recursive worker of `retry`: attempt number `k` is executed; on
failure, when `retries` is positive, the current `delay` is slept, the
delay is multiplied by `backoff`, and the recursion continues — mirroring
the source, which tries `await fn()`, and in the catch re-throws when
`retries <= 0`, else sleeps `delay` and recurses with `retries - 1` and
`delay * backoff`. -/
def retryGo (fn : Nat → Except ε α) : Nat → Nat → Nat → Nat → RetryTrace ε α
  | k, retries, delay, backoff =>
    match fn k with
    | .ok a => ⟨.ok a, 1, []⟩
    | .error e =>
      match retries with
      | 0 => ⟨.error e, 1, []⟩
      | r + 1 =>
        let t := retryGo fn (k + 1) r (delay * backoff) backoff
        ⟨t.result, t.calls + 1, delay :: t.sleeps⟩

/-- `retry(fn, retries = 3, delay = 1000, backoff = 2)`. -/
def retry (fn : Nat → Except ε α) (retries : Nat := 3) (delay : Nat := 1000)
    (backoff : Nat := 2) : RetryTrace ε α :=
  retryGo fn 0 retries delay backoff

theorem retryGo_of_ok (fn : Nat → Except ε α) (k retries delay backoff : Nat)
    (a : α) (h : fn k = .ok a) :
    retryGo fn k retries delay backoff = ⟨.ok a, 1, []⟩ := by
  simp only [retryGo.eq_def, h]

theorem retryGo_of_error_zero (fn : Nat → Except ε α) (k delay backoff : Nat)
    (e : ε) (h : fn k = .error e) :
    retryGo fn k 0 delay backoff = ⟨.error e, 1, []⟩ := by
  simp only [retryGo.eq_def, h]

theorem retryGo_of_error_succ (fn : Nat → Except ε α) (k r delay backoff : Nat)
    (e : ε) (h : fn k = .error e) :
    retryGo fn k (r + 1) delay backoff =
      ⟨(retryGo fn (k + 1) r (delay * backoff) backoff).result,
       (retryGo fn (k + 1) r (delay * backoff) backoff).calls + 1,
       delay :: (retryGo fn (k + 1) r (delay * backoff) backoff).sleeps⟩ := by
  conv_lhs => rw [retryGo.eq_def]
  simp only [h]

/-- Full characterisation of `retryGo`: at least one and at most
`retries + 1` invocations happen; the returned outcome is exactly the
outcome of the last invocation; every earlier invocation failed; an error
is only returned once the whole budget is used; and the sleeps are the
geometric delay sequence, one per non-final attempt. -/
theorem retryGo_spec (fn : Nat → Except ε α) (retries : Nat) :
    ∀ k delay backoff,
    1 ≤ (retryGo fn k retries delay backoff).calls ∧
    (retryGo fn k retries delay backoff).calls ≤ retries + 1 ∧
    (retryGo fn k retries delay backoff).result
      = fn (k + ((retryGo fn k retries delay backoff).calls - 1)) ∧
    (∀ j, j < (retryGo fn k retries delay backoff).calls - 1 →
      ∃ e, fn (k + j) = .error e) ∧
    ((∃ e, (retryGo fn k retries delay backoff).result = .error e) →
      (retryGo fn k retries delay backoff).calls = retries + 1) ∧
    (retryGo fn k retries delay backoff).sleeps
      = (List.range ((retryGo fn k retries delay backoff).calls - 1)).map
          (fun i => delay * backoff ^ i) := by
  induction retries with
  | zero =>
    intro k delay backoff
    cases h : fn k with
    | ok a =>
      rw [retryGo_of_ok fn k 0 delay backoff a h]
      refine ⟨by simp, by simp, by simpa using h.symm, ?_, by simp, by simp⟩
      intro j hj; simp at hj
    | error e =>
      rw [retryGo_of_error_zero fn k delay backoff e h]
      refine ⟨by simp, by simp, by simpa using h.symm, ?_, by simp, by simp⟩
      intro j hj; simp at hj
  | succ r ih =>
    intro k delay backoff
    cases h : fn k with
    | ok a =>
      rw [retryGo_of_ok fn k (r + 1) delay backoff a h]
      refine ⟨by simp, by simp, by simpa using h.symm, ?_, by simp, by simp⟩
      intro j hj; simp at hj
    | error e =>
      rw [retryGo_of_error_succ fn k r delay backoff e h]
      obtain ⟨h1, h2, h3, h4, h5, h6⟩ := ih (k + 1) (delay * backoff) backoff
      set t := retryGo fn (k + 1) r (delay * backoff) backoff with ht
      refine ⟨by simp, by simpa using h2, ?_, ?_, ?_, ?_⟩
      · show t.result = fn (k + (t.calls + 1 - 1))
        have hc : t.calls + 1 - 1 = (t.calls - 1) + 1 := by omega
        rw [hc]
        have : k + ((t.calls - 1) + 1) = (k + 1) + (t.calls - 1) := by omega
        rw [this]
        exact h3
      · intro j hj
        have hj' : j < t.calls + 1 - 1 := hj
        cases j with
        | zero => exact ⟨e, by simpa using h⟩
        | succ j' =>
          have : k + (j' + 1) = (k + 1) + j' := by omega
          rw [this]
          exact h4 j' (by omega)
      · intro he
        have := h5 he
        show t.calls + 1 = r + 1 + 1
        omega
      · show delay :: t.sleeps
          = (List.range (t.calls + 1 - 1)).map (fun i => delay * backoff ^ i)
        have hc : t.calls + 1 - 1 = (t.calls - 1) + 1 := by omega
        rw [hc, List.range_succ_eq_map, List.map_cons]
        congr 1
        · simp
        · rw [h6, List.map_map]
          apply List.map_congr_left
          intro i _
          simp only [Function.comp_apply, pow_succ]
          ring

/-- An operation whose every invocation fails. -/
def alwaysFail : Nat → Except Nat Unit := fun _ => .error 0

/-- C3 (counterexample): with the default parameters
(`retries = 3, delay = 1000, backoff = 2`) the retry wrapper executes an
always-failing operation 4 times in total (the initial attempt plus 3
retries), so the claimed bound of "at most 3 executions in total" is
false. -/
theorem retry_default_four_attempts :
    (retry alwaysFail).calls = 4 ∧ ¬ (retry alwaysFail).calls ≤ 3 := by
  decide

/-- C3 (amended): `retry` with its default parameters executes the
operation at most 4 times in total (1 initial attempt + 3 retries); the
returned outcome is exactly that of the last attempt (a success is
returned unchanged and stops further attempts, and after 4 failures the
4th error is re-raised); every earlier attempt failed; and one sleep of
the current delay happens between consecutive attempts, the delay doubling
each time (1000, 2000, 4000 ms). -/
theorem retry_default_spec (fn : Nat → Except ε α) :
    1 ≤ (retry fn).calls ∧
    (retry fn).calls ≤ 4 ∧
    (retry fn).result = fn ((retry fn).calls - 1) ∧
    (∀ j, j < (retry fn).calls - 1 → ∃ e, fn j = .error e) ∧
    ((∃ e, (retry fn).result = .error e) → (retry fn).calls = 4) ∧
    (retry fn).sleeps = [1000, 2000, 4000].take ((retry fn).calls - 1) := by
  obtain ⟨h1, h2, h3, h4, h5, h6⟩ := retryGo_spec fn 3 0 1000 2
  have e : retry fn = retryGo fn 0 3 1000 2 := rfl
  rw [e]
  refine ⟨h1, h2, by simpa using h3, ?_, h5, ?_⟩
  · intro j hj
    simpa using h4 j hj
  · rw [h6]
    have hn : (retryGo fn 0 3 1000 2).calls - 1 ≤ 3 := by omega
    revert hn
    generalize (retryGo fn 0 3 1000 2).calls - 1 = n
    intro hn
    interval_cases n <;> decide

/-- Witness for C3 (amended) at the always-failing operation: the error
branch of the characterisation applies and gives exactly 4 calls. -/
theorem retry_default_spec_witness : (retry alwaysFail).calls = 4 :=
  (retry_default_spec alwaysFail).2.2.2.2.1 ⟨0, rfl⟩

/-! ## percent-encoding (`encodeURIComponent`) -/

/-- Characters that `encodeURIComponent` leaves unescaped:
ASCII letters and digits and `- _ . ! ~ * ( )` and the apostrophe. -/
def isUriUnreserved (c : Char) : Bool :=
  let n := c.toNat
  (65 ≤ n && n ≤ 90) || (97 ≤ n && n ≤ 122) || (48 ≤ n && n ≤ 57) ||
  n = 45 || n = 95 || n = 46 || n = 33 || n = 126 || n = 42 || n = 39 ||
  n = 40 || n = 41

/-- Upper-case hexadecimal digit, as used in percent-escapes. -/
def hexDigitCharUpper (n : Nat) : Char :=
  if n < 10 then Char.ofNat (48 + n) else Char.ofNat (55 + n)

/-- One percent-escape `%XY` for a byte. -/
def percentByte (b : Nat) : List Char :=
  ['%', hexDigitCharUpper (b / 16 % 16), hexDigitCharUpper (b % 16)]

/-- `encodeURIComponent` on one character: unreserved characters pass
through, everything else becomes the percent-escapes of its UTF-8 bytes. -/
def encodeChar (c : Char) : List Char :=
  if isUriUnreserved c then [c] else ((utf8Bytes c).map percentByte).flatten

def encodeURIComponentList (l : List Char) : List Char :=
  (l.map encodeChar).flatten

/-- JavaScript `encodeURIComponent`. -/
def encodeURIComponent (s : String) : String :=
  String.mk (encodeURIComponentList s.data)

/-- `String.prototype.toLowerCase` on one character, for the ASCII range
(all header names in this module are ASCII). -/
def jsToLowerChar (c : Char) : Char :=
  if 65 ≤ c.toNat && c.toNat ≤ 90 then Char.ofNat (c.toNat + 32) else c

/-- `String.prototype.toLowerCase` (ASCII range). -/
def jsToLower (s : String) : String :=
  String.mk (s.data.map jsToLowerChar)

/-! ## Configuration and the abstract hashing primitives -/

/-- `R2Config` (from `types`): the storage credentials.  A missing
`publicUrl` is `none`; JavaScript truthiness additionally treats an empty
string as unset. -/
structure R2Config where
  accountId : String
  accessKeyId : String
  secretAccessKey : String
  bucketName : String
  publicUrl : Option String := none

/-- The platform cryptography primitives (`crypto.subtle`): a digest over
bytes and a keyed digest (HMAC) over a key and message.  These are not
part of the repository, so the development is parameterised by them. -/
structure HashModel where
  digest : List Nat → List Nat
  hmac : List Nat → List Nat → List Nat

/-- `sha256(data)` for a byte buffer: hex string of the digest. -/
def sha256Hex (H : HashModel) (bytes : List Nat) : String :=
  toHexString (H.digest bytes)

/-- `sha256(data)` for a string argument: the string is UTF-8 encoded
first. -/
def sha256Str (H : HashModel) (s : String) : String :=
  sha256Hex H (utf8Encode s)

/-- `hmacSha256(key, data)`: hex string of the keyed digest. -/
def hmacSha256 (H : HashModel) (key : List Nat) (data : String) : String :=
  toHexString (H.hmac key (utf8Encode data))

/-- `hmacSha256Buffer(key, data)`: raw keyed digest. -/
def hmacSha256Buffer (H : HashModel) (key : List Nat) (data : String) :
    List Nat :=
  H.hmac key (utf8Encode data)

/-- `getSignatureKey`: the 4-step key-derivation chain seeded with
`AWS4 + secret`, folding in date, region, service and `aws4_request`. -/
def getSignatureKey (H : HashModel)
    (key dateStamp regionName serviceName : String) : List Nat :=
  let kDate := hmacSha256Buffer H (utf8Encode ("AWS4" ++ key)) dateStamp
  let kRegion := hmacSha256Buffer H kDate regionName
  let kService := hmacSha256Buffer H kRegion serviceName
  hmacSha256Buffer H kService "aws4_request"

/-! ## Canonical request and signature (source lines 99-137) -/

/-- `s.substr(0, n)`. -/
def strTake (s : String) (n : Nat) : String :=
  String.mk (s.data.take n)

/-- JavaScript property read `obj[key]` on an object modelled as an
association list (keys are unique in a JavaScript object). -/
def assocValue (l : List (String × String)) (k : String) : String :=
  (l.lookup k).getD ""

theorem charEq_of_toNat {a b : Char} (h : a.toNat = b.toNat) : a = b := by
  have h2 : Char.ofNat a.toNat = Char.ofNat b.toNat := congrArg Char.ofNat h
  rwa [Char.ofNat_toNat, Char.ofNat_toNat] at h2

theorem stringEq_of_data {s t : String} (h : s.data = t.data) : s = t := by
  cases s
  cases t
  exact congrArg String.mk h

/-- Lexicographic code-unit comparison of two strings, as performed by the
default comparator of JavaScript `Array.prototype.sort` (all strings sorted
in this module are ASCII, where code units and code points agree). -/
def charListLt : List Char → List Char → Bool
  | [], [] => false
  | [], _ :: _ => true
  | _ :: _, [] => false
  | a :: as, b :: bs =>
    if a.toNat < b.toNat then true
    else if b.toNat < a.toNat then false
    else charListLt as bs

theorem charListLt_asymm :
    ∀ as bs, charListLt as bs = true → charListLt bs as = false := by
  intro as
  induction as with
  | nil =>
    intro bs h
    cases bs with
    | nil => simp [charListLt] at h
    | cons b bs => simp [charListLt]
  | cons a as ih =>
    intro bs h
    cases bs with
    | nil => simp [charListLt] at h
    | cons b bs =>
      simp only [charListLt] at h ⊢
      by_cases h1 : a.toNat < b.toNat
      · rw [if_neg (by omega), if_pos h1]
      · by_cases h2 : b.toNat < a.toNat
        · rw [if_neg h1, if_pos h2] at h
          exact absurd h (by simp)
        · rw [if_neg h1, if_neg h2] at h
          rw [if_neg h2, if_neg h1]
          exact ih bs h

theorem charListLt_trans :
    ∀ as bs cs, charListLt as bs = true → charListLt bs cs = true →
      charListLt as cs = true := by
  intro as
  induction as with
  | nil =>
    intro bs cs h1 h2
    cases bs with
    | nil => simp [charListLt] at h1
    | cons b bs =>
      cases cs with
      | nil => simp [charListLt] at h2
      | cons c cs => simp [charListLt]
  | cons a as ih =>
    intro bs cs h1 h2
    cases bs with
    | nil => simp [charListLt] at h1
    | cons b bs =>
      cases cs with
      | nil => simp [charListLt] at h2
      | cons c cs =>
        simp only [charListLt] at h1 h2 ⊢
        by_cases hab : a.toNat < b.toNat
        · by_cases hbc : b.toNat < c.toNat
          · rw [if_pos (by omega)]
          · rw [if_neg hbc] at h2
            by_cases hcb : c.toNat < b.toNat
            · rw [if_pos hcb] at h2
              exact absurd h2 (by simp)
            · rw [if_pos (by omega)]
        · rw [if_neg hab] at h1
          by_cases hba : b.toNat < a.toNat
          · rw [if_pos hba] at h1
            exact absurd h1 (by simp)
          · rw [if_neg hba] at h1
            by_cases hbc : b.toNat < c.toNat
            · rw [if_pos (by omega)]
            · rw [if_neg hbc] at h2
              by_cases hcb : c.toNat < b.toNat
              · rw [if_pos hcb] at h2
                exact absurd h2 (by simp)
              · rw [if_neg hcb] at h2
                rw [if_neg (by omega), if_neg (by omega)]
                exact ih bs cs h1 h2

theorem charListLt_eq_of_not :
    ∀ as bs, charListLt as bs = false → charListLt bs as = false →
      as = bs := by
  intro as
  induction as with
  | nil =>
    intro bs h1 _
    cases bs with
    | nil => rfl
    | cons b bs => simp [charListLt] at h1
  | cons a as ih =>
    intro bs h1 h2
    cases bs with
    | nil => simp [charListLt] at h2
    | cons b bs =>
      simp only [charListLt] at h1 h2
      by_cases hab : a.toNat < b.toNat
      · rw [if_pos hab] at h1
        exact absurd h1 (by simp)
      · by_cases hba : b.toNat < a.toNat
        · rw [if_pos hba] at h2
          exact absurd h2 (by simp)
        · rw [if_neg hab, if_neg hba] at h1
          rw [if_neg hba, if_neg hab] at h2
          have hhd : a = b := charEq_of_toNat (by omega)
          have htl : as = bs := ih bs h1 h2
          rw [hhd, htl]

/-- `a` sorts no later than `b` under the JavaScript default comparator. -/
def jsStrLe (a b : String) : Bool := !(charListLt b.data a.data)

instance : IsTrans String (fun a b => jsStrLe a b = true) where
  trans a b c hab hbc := by
    simp only [jsStrLe, Bool.not_eq_true'] at hab hbc ⊢
    by_contra hca
    have hca' : charListLt c.data a.data = true := by
      revert hca
      cases charListLt c.data a.data <;> simp
    by_cases hab2 : charListLt a.data b.data = true
    · have := charListLt_trans _ _ _ hca' hab2
      rw [this] at hbc
      exact absurd hbc (by simp)
    · have hab2' : charListLt a.data b.data = false := by
        revert hab2
        cases charListLt a.data b.data <;> simp
      have heq : a.data = b.data := charListLt_eq_of_not _ _ hab2' hab
      rw [heq] at hca'
      rw [hca'] at hbc
      exact absurd hbc (by simp)

instance : IsAntisymm String (fun a b => jsStrLe a b = true) where
  antisymm a b hab hba := by
    simp only [jsStrLe, Bool.not_eq_true'] at hab hba
    exact stringEq_of_data (charListLt_eq_of_not _ _ hba hab)

instance : IsTotal String (fun a b => jsStrLe a b = true) where
  total a b := by
    simp only [jsStrLe, Bool.not_eq_true']
    by_cases h : charListLt b.data a.data = true
    · right
      exact charListLt_asymm _ _ h
    · left
      revert h
      cases charListLt b.data a.data <;> simp

/-- `keys.sort()` with the JavaScript default comparator. -/
def sortStrings (l : List String) : List String :=
  l.insertionSort (fun a b => jsStrLe a b = true)

/-- `Object.keys(obj).sort()`: the keys in code-unit order. -/
def sortedKeys (l : List (String × String)) : List String :=
  sortStrings (l.map Prod.fst)

/-- The canonical header block: `name:trimmedValue\n` for every header,
in sorted order of the ORIGINAL-case names, each name lower-cased only
after sorting. -/
def canonicalHeaders (headers : List (String × String)) : String :=
  String.join ((sortedKeys headers).map
    (fun k => jsToLower k ++ ":" ++ jsTrim (assocValue headers k) ++ "\n"))

/-- The `;`-joined lower-cased sorted header names. -/
def signedHeadersOf (headers : List (String × String)) : String :=
  String.intercalate ";" ((sortedKeys headers).map jsToLower)

/-- The canonical query string: percent-encoded `key=value` pairs joined
by `&` in sorted key order. -/
def canonicalQueryString (queryParams : List (String × String)) : String :=
  String.intercalate "&" ((sortedKeys queryParams).map
    (fun k => encodeURIComponent k ++ "=" ++
      encodeURIComponent (assocValue queryParams k)))

/-- `createAwsSignature(method, path, headers, config, payload,
queryParams)`: the SigV4 authorization header value. -/
def createAwsSignature (H : HashModel) (method path : String)
    (headers : List (String × String)) (config : R2Config)
    (payload : List Nat := []) (queryParams : List (String × String) := []) :
    String :=
  let region := "auto"
  let service := "s3"
  let payloadHash := sha256Hex H payload
  let canonicalRequest := method ++ "\n" ++ path ++ "\n" ++
    canonicalQueryString queryParams ++ "\n" ++ canonicalHeaders headers ++
    "\n" ++ signedHeadersOf headers ++ "\n" ++ payloadHash
  let date := assocValue headers "X-Amz-Date"
  let dateStamp := strTake date 8
  let credentialScope := dateStamp ++ "/" ++ region ++ "/" ++ service ++
    "/aws4_request"
  let canonicalRequestHash := sha256Str H canonicalRequest
  let stringToSign := "AWS4-HMAC-SHA256\n" ++ date ++ "\n" ++
    credentialScope ++ "\n" ++ canonicalRequestHash
  let signingKey := getSignatureKey H config.secretAccessKey dateStamp
    region service
  let signature := hmacSha256 H signingKey stringToSign
  "AWS4-HMAC-SHA256 Credential=" ++ config.accessKeyId ++ "/" ++
    credentialScope ++ ", SignedHeaders=" ++ signedHeadersOf headers ++
    ", Signature=" ++ signature

/-! ## Claim C4: header order and case -/

theorem lookup_cons_eq {β : Type} (a k : String) (b : β)
    (es : List (String × β)) :
    ((a, b) :: es).lookup k = if k == a then some b else es.lookup k := by
  cases h : k == a <;> simp [List.lookup, h]

theorem lookup_eq_of_perm {β : Type} {l₁ l₂ : List (String × β)}
    (hp : l₁.Perm l₂) (k : String) :
    (l₁.map Prod.fst).Nodup → l₁.lookup k = l₂.lookup k := by
  induction hp with
  | nil => intro _; rfl
  | cons x h ih =>
    intro hnd
    obtain ⟨x1, x2⟩ := x
    simp only [List.map_cons, List.nodup_cons] at hnd
    simp only [lookup_cons_eq]
    by_cases hbe : k == x1
    · rw [if_pos hbe, if_pos hbe]
    · rw [if_neg hbe, if_neg hbe]
      exact ih hnd.2
  | swap x y l =>
    intro hnd
    obtain ⟨x1, x2⟩ := x
    obtain ⟨y1, y2⟩ := y
    simp only [List.map_cons, List.nodup_cons, List.mem_cons] at hnd
    have hxy : y1 ≠ x1 := fun hcontra => hnd.1 (Or.inl hcontra)
    simp only [lookup_cons_eq]
    by_cases h1 : k == x1 <;> by_cases h2 : k == y1
    · exact absurd ((eq_of_beq h2).symm.trans (eq_of_beq h1)) hxy
    · simp only [if_pos h1, if_neg h2]
    · simp only [if_pos h2, if_neg h1]
    · simp only [if_neg h1, if_neg h2]
  | trans h12 h23 ih12 ih23 =>
    intro hnd
    have hnd2 := ((h12.map Prod.fst).nodup_iff).mp hnd
    exact (ih12 hnd).trans (ih23 hnd2)

theorem sortedKeys_eq_of_perm (l₁ l₂ : List (String × String))
    (hp : l₁.Perm l₂) : sortedKeys l₁ = sortedKeys l₂ := by
  have hs₁ : List.Sorted (fun a b : String => jsStrLe a b = true)
      ((l₁.map Prod.fst).insertionSort (fun a b => jsStrLe a b = true)) :=
    List.sorted_insertionSort _ _
  have hs₂ : List.Sorted (fun a b : String => jsStrLe a b = true)
      ((l₂.map Prod.fst).insertionSort (fun a b => jsStrLe a b = true)) :=
    List.sorted_insertionSort _ _
  have hpp : ((l₁.map Prod.fst).insertionSort
        (fun a b => jsStrLe a b = true)).Perm
      ((l₂.map Prod.fst).insertionSort (fun a b => jsStrLe a b = true)) :=
    (List.perm_insertionSort _ _).trans
      ((hp.map Prod.fst).trans (List.perm_insertionSort _ _).symm)
  exact List.eq_of_perm_of_sorted hpp hs₁ hs₂

/-- C4 (amended, part 1): the input ORDER of the header map never affects
the signature — for any permutation of the same name/value pairs (names
unique, as in a JavaScript object), `createAwsSignature` yields an
identical result, for every choice of hash primitives, method, path,
config, payload, query and timestamp header. -/
theorem createAwsSignature_order_invariant (H : HashModel)
    (method path : String) (config : R2Config) (payload : List Nat)
    (queryParams h₁ h₂ : List (String × String)) (hp : h₁.Perm h₂)
    (hnd : (h₁.map Prod.fst).Nodup) :
    createAwsSignature H method path h₁ config payload queryParams
      = createAwsSignature H method path h₂ config payload queryParams := by
  have hsk := sortedKeys_eq_of_perm h₁ h₂ hp
  have hlk : ∀ k, assocValue h₁ k = assocValue h₂ k := fun k => by
    unfold assocValue
    rw [lookup_eq_of_perm hp k hnd]
  have hch : canonicalHeaders h₁ = canonicalHeaders h₂ := by
    unfold canonicalHeaders
    rw [hsk]
    congr 1
    apply List.map_congr_left
    intro k _
    rw [hlk k]
  have hsh : signedHeadersOf h₁ = signedHeadersOf h₂ := by
    unfold signedHeadersOf
    rw [hsk]
  unfold createAwsSignature
  rw [hch, hsh, hlk "X-Amz-Date"]

/-- A concrete instantiation of the platform hash primitives, used to
evaluate the signing pipeline on explicit inputs. -/
def hashId : HashModel := ⟨fun bs => bs, fun k m => k ++ m⟩

def cfg0 : R2Config := ⟨"acct", "AKID", "SECRET", "bucket", none⟩

set_option maxRecDepth 100000 in
/-- Witness for C4 (amended, part 1), at the specification example
`[B:2, A:1]` versus `[A:1, B:2]` with an identical `X-Amz-Date`. -/
theorem createAwsSignature_order_invariant_witness :
    createAwsSignature hashId "PUT" "/bucket/k"
        [("B", "2"), ("A", "1"), ("X-Amz-Date", "20250101T000000Z")] cfg0 [] []
      = createAwsSignature hashId "PUT" "/bucket/k"
        [("A", "1"), ("X-Amz-Date", "20250101T000000Z"), ("B", "2")] cfg0 []
        [] :=
  createAwsSignature_order_invariant hashId "PUT" "/bucket/k" cfg0 [] []
    _ _ (by decide) (by decide)

set_option maxRecDepth 100000 in
/-- C4 (counterexample, the case part): header-name CASE can affect the
signature, because the code sorts the original-case names before
lower-casing them.  The maps `[B:2, a:1]` and `[b:2, a:1]` hold the same
name/value pairs up to letter case, yet their canonical header blocks
differ (`b:2` then `a:1` versus `a:1` then `b:2`), and with the timestamp header
added their signatures differ as well (evaluated at the concrete hash
instantiation `hashId`). -/
theorem createAwsSignature_case_changes_signature :
    canonicalHeaders [("B", "2"), ("a", "1")]
      ≠ canonicalHeaders [("b", "2"), ("a", "1")] ∧
    createAwsSignature hashId "GET" "/"
        [("B", "2"), ("a", "1"), ("X-Amz-Date", "20250101T000000Z")] cfg0 [] []
      ≠ createAwsSignature hashId "GET" "/"
        [("b", "2"), ("a", "1"), ("X-Amz-Date", "20250101T000000Z")] cfg0 []
        [] := by
  constructor
  · decide
  · decide

/-! ## Claim C2: the bucket CORS client (source lines 413-451) -/

/-- The observable part of a `fetch` response: its status code
(`response.ok` is true exactly for statuses 200-299).  The response body
is never read by `getBucketCors`, so it is not modelled. -/
structure FetchResponse where
  status : Nat

def responseOk (r : FetchResponse) : Bool :=
  200 ≤ r.status && r.status < 300

/-- The body of the `try` block of `getBucketCors`: the fetch itself
(whose rejection is the `.error` case of the argument), the 404 test, the
`throw` on any other non-2xx status, and `return true` on 2xx.  The
`statusText` fragment of the thrown message is elided; the status is
kept. -/
def getBucketCorsTry (fetchResult : Except String FetchResponse) :
    Except String Bool :=
  match fetchResult with
  | .error e => .error e
  | .ok response =>
    if response.status = 404 then .ok false
    else if !(responseOk response) then
      .error ("Failed to get CORS policy: " ++ toString response.status)
    else .ok true

/-- `getBucketCors`: the surrounding `catch` logs the error and returns
`false`, so the function as a whole always resolves with a boolean. -/
def getBucketCors (fetchResult : Except String FetchResponse) : Bool :=
  match getBucketCorsTry fetchResult with
  | .ok b => b
  | .error _ => false

/-- C2 (counterexample): for a simulated 500 response `getBucketCors` does
NOT raise.  The `throw` sits inside the same `try` block whose `catch`
logs and returns `false`, so the inner computation raises but the caller
observes `false`. -/
theorem getBucketCors_500_returns_false :
    getBucketCors (Except.ok ⟨500⟩) = false ∧
    getBucketCorsTry (Except.ok ⟨500⟩)
      = Except.error "Failed to get CORS policy: 500" := by
  exact ⟨rfl, rfl⟩

/-- C2 (amended): `getBucketCors` returns `false` on a 404 status; on any
other non-2xx status it builds and raises the `Failed to get CORS policy`
error inside its `try` block, but its own `catch` swallows that error, so
the caller observes `false` rather than a raised error; on any 2xx status
it returns `true` without reading the response body; and a fetch-level
failure also yields `false`. -/
theorem getBucketCors_spec (r : FetchResponse) (e : String) :
    (r.status = 404 → getBucketCors (.ok r) = false) ∧
    (r.status ≠ 404 → responseOk r = false →
      getBucketCors (.ok r) = false ∧
      getBucketCorsTry (.ok r)
        = .error ("Failed to get CORS policy: " ++ toString r.status)) ∧
    (responseOk r = true → getBucketCors (.ok r) = true) ∧
    getBucketCors (.error e) = false := by
  refine ⟨?_, ?_, ?_, rfl⟩
  · intro h
    simp [getBucketCors, getBucketCorsTry, h]
  · intro h1 h2
    constructor <;> simp [getBucketCors, getBucketCorsTry, h1, h2]
  · intro h1
    have h404 : r.status ≠ 404 := by
      simp only [responseOk, Bool.and_eq_true, decide_eq_true_eq] at h1
      omega
    simp [getBucketCors, getBucketCorsTry, h404, h1]

/-- Witness for C2 (amended) at statuses 404, 500, 200 and a network
failure. -/
theorem getBucketCors_spec_witness :
    getBucketCors (Except.ok ⟨404⟩) = false ∧
    getBucketCors (Except.ok ⟨500⟩) = false ∧
    getBucketCors (Except.ok ⟨200⟩) = true ∧
    getBucketCors (Except.error "network") = false :=
  ⟨(getBucketCors_spec ⟨404⟩ "network").1 rfl,
   ((getBucketCors_spec ⟨500⟩ "network").2.1 (by decide) rfl).1,
   (getBucketCors_spec ⟨200⟩ "network").2.2.1 rfl,
   (getBucketCors_spec ⟨200⟩ "network").2.2.2⟩

/-! ## Claim C1: multipart failure handling (source lines 272-307) -/

/-- The failure-handling tail of the multipart path of `uploadFileToR2`.
If the `try` block (part uploads and the completion call, each already
retry-wrapped) fails, the `catch` block logs and then runs
`await retry(() => abortMultipartUpload(..))` with NO guard of its own,
and only afterwards re-throws the original error; so a rejection of the
retry-wrapped abort propagates instead of the original error.
`tryResult` is the outcome of the try block; `abortAttempts` is the stream
of outcomes of successive `abortMultipartUpload` invocations (each
invocation issues exactly one DELETE request).  The result pairs the
overall outcome with the number of abort requests issued. -/
def multipartFinish (tryResult : Except String Unit)
    (abortAttempts : Nat → Except String Unit) :
    Except String Unit × Nat :=
  match tryResult with
  | .ok a => (.ok a, 0)
  | .error e =>
    let t := retryGo abortAttempts 0 3 1000 2
    match t.result with
    | .ok _ => (.error e, t.calls)
    | .error ea => (.error ea, t.calls)

/-- C1 (code bug, evaluated at the failing input): when the abort succeeds
at once, exactly one abort request is issued and the original error
propagates, as the claim states; but when every abort request fails, the
code issues 4 abort requests (the abort call is itself retry-wrapped) and
propagates the ABORT error, masking the original part/completion error —
the abort failure is re-raised rather than swallowed and logged. -/
theorem multipartFinish_abort_masks_original :
    multipartFinish (Except.error "Part upload failed: 500 ")
        (fun _ => Except.ok ())
      = (Except.error "Part upload failed: 500 ", 1) ∧
    multipartFinish (Except.error "Part upload failed: 500 ")
        (fun _ => Except.error "Network error during part upload")
      = (Except.error "Network error during part upload", 4) :=
  ⟨rfl, rfl⟩

/-! ## Claims C5/C6: the multipart split and the completion payload -/

def MULTIPART_THRESHOLD : Nat := 100 * 1024 * 1024

def PART_SIZE : Nat := 10 * 1024 * 1024

def MAX_CONCURRENT_PARTS : Nat := 3

/-- `Math.ceil(file.size / PART_SIZE)` (exact rational ceiling; the sizes
involved are far below the range where IEEE-754 division could round the
quotient across an integer boundary). -/
def totalParts (size : Nat) : Nat :=
  (size + PART_SIZE - 1) / PART_SIZE

/-- `start = i * PART_SIZE` for part index `i` (0-based). -/
def partStart (i : Nat) : Nat := i * PART_SIZE

/-- `end = Math.min(start + PART_SIZE, file.size)`. -/
def partEnd (size i : Nat) : Nat := min (partStart i + PART_SIZE) size

/-- Length of the byte slice `file.slice(start, end)` for part `i`. -/
def partSliceLen (size i : Nat) : Nat := partEnd size i - partStart i

/-- One record pairing a PartNumber with its ETag. -/
structure PartETag where
  PartNumber : Nat
  ETag : String

/-- `asyncPool` stores each task result at its ORIGINAL index
(`results[index] = res`), whatever order the tasks complete in:
`completionOrder` lists the indices in completion order and each
completion writes slot `i` of the result array. -/
def asyncPoolResults {α : Type} (f : Nat → α) (dflt : α) (n : Nat)
    (completionOrder : List Nat) : List α :=
  completionOrder.foldl (fun acc i => acc.set i (f i)) (List.replicate n dflt)

theorem foldl_set_getElem? {α : Type} (f : Nat → α) (order : List Nat) :
    ∀ (acc : List α) (i : Nat),
      (order.foldl (fun a j => a.set j (f j)) acc)[i]?
        = if i ∈ order ∧ i < acc.length then some (f i) else acc[i]? := by
  induction order with
  | nil =>
    intro acc i
    simp
  | cons j rest ih =>
    intro acc i
    rw [List.foldl_cons, ih]
    by_cases hm : i ∈ rest
    · by_cases hl : i < acc.length
      · rw [if_pos ⟨hm, by simpa using hl⟩, if_pos ⟨List.mem_cons_of_mem j hm, hl⟩]
      · rw [if_neg (by simpa using fun _ => hl),
          if_neg (by simpa using fun _ => hl)]
        by_cases hij : i = j
        · subst hij
          rw [List.getElem?_eq_none (by simpa using Nat.le_of_not_lt hl),
            List.getElem?_eq_none (by simpa using Nat.le_of_not_lt hl)]
        · rw [List.getElem?_set_ne (fun hctr => hij hctr.symm)]
    · by_cases hij : i = j
      · subst hij
        by_cases hl : i < acc.length
        · rw [if_neg (by simpa using fun h => absurd h hm),
            if_pos ⟨List.mem_cons_self i rest, hl⟩,
            List.getElem?_set_eq_of_lt _ hl]
        · rw [if_neg (by simpa using fun h => absurd h hm),
            if_neg (fun hctr => hl hctr.2),
            List.getElem?_eq_none (by simpa using Nat.le_of_not_lt hl),
            List.getElem?_eq_none (by simpa using Nat.le_of_not_lt hl)]
      · rw [if_neg (by simpa using fun h => absurd h hm),
          if_neg (fun hctr => by
            rcases List.mem_cons.mp hctr.1 with h | h
            · exact hij h
            · exact hm h),
          List.getElem?_set_ne (fun hctr => hij hctr.symm)]

/-- Whatever permutation of `0..n-1` the completions arrive in, the result
array of `asyncPool` is the results in original index order. -/
theorem asyncPoolResults_eq {α : Type} (f : Nat → α) (dflt : α) (n : Nat)
    (order : List Nat) (hp : order.Perm (List.range n)) :
    asyncPoolResults f dflt n order = (List.range n).map f := by
  apply List.ext_getElem?
  intro i
  rw [asyncPoolResults, foldl_set_getElem?]
  by_cases hi : i < n
  · rw [if_pos ⟨hp.mem_iff.mpr (List.mem_range.mpr hi), by simpa using hi⟩]
    simp [hi]
  · rw [if_neg (fun hctr => hi (by simpa using hctr.2))]
    rw [List.getElem?_eq_none (by simpa using Nat.le_of_not_lt hi),
      List.getElem?_eq_none (by simpa using Nat.le_of_not_lt hi)]

/-- The part records produced by the multipart pool: slot `i` gets
PartNumber `i + 1` and ETag `etag i`. -/
def uploadedParts (etag : Nat → String) (n : Nat) (order : List Nat) :
    List PartETag :=
  asyncPoolResults (fun i => ⟨i + 1, etag i⟩) ⟨0, ""⟩ n order

/-- `parts.sort((a, b) => a.PartNumber - b.PartNumber)`. -/
def sortParts (ps : List PartETag) : List PartETag :=
  ps.insertionSort (fun a b => a.PartNumber ≤ b.PartNumber)

/-- One `<Part>` element of the completion payload. -/
def partXml (p : PartETag) : String :=
  "<Part><PartNumber>" ++ toString p.PartNumber ++ "</PartNumber><ETag>" ++
    p.ETag ++ "</ETag></Part>"

/-- The XML body of `completeMultipartUpload` (exact template string). -/
def completeXmlBody (parts : List PartETag) : String :=
  "\n    <CompleteMultipartUpload xmlns=\"http://s3.amazonaws.com/doc/2006-03-01/\">\n      "
    ++ String.join (parts.map partXml) ++
    "\n    </CompleteMultipartUpload>\n  "

theorem sortParts_of_range (etag : Nat → String) (n : Nat) :
    sortParts ((List.range n).map (fun i => ⟨i + 1, etag i⟩))
      = (List.range n).map (fun i => ⟨i + 1, etag i⟩) := by
  apply List.Sorted.insertionSort_eq
  rw [List.Sorted, List.pairwise_map]
  exact (List.pairwise_lt_range n).imp
    (fun h => Nat.add_le_add_right (Nat.le_of_lt h) 1)

/-- C5: for a multipart upload of `size` bytes (above the threshold) with
the fixed 10 MB part size, the number of parts is the ceiling of
`size / PART_SIZE` (characterised by the two inequalities), every
non-final part slice is exactly `PART_SIZE` bytes, the final slice is
`size - PART_SIZE * (N - 1)` bytes, and whatever order the concurrent part
uploads complete in, the sorted part list — hence the completion XML —
lists exactly the parts `1 .. N` in ascending part-number order. -/
theorem multipart_parts_spec (size : Nat) (etag : Nat → String)
    (order : List Nat) (hsize : MULTIPART_THRESHOLD < size)
    (hp : order.Perm (List.range (totalParts size))) :
    (PART_SIZE * (totalParts size - 1) < size ∧
      size ≤ PART_SIZE * totalParts size) ∧
    (∀ i, i < totalParts size - 1 → partSliceLen size i = PART_SIZE) ∧
    partSliceLen size (totalParts size - 1)
      = size - PART_SIZE * (totalParts size - 1) ∧
    sortParts (uploadedParts etag (totalParts size) order)
      = (List.range (totalParts size)).map (fun i => ⟨i + 1, etag i⟩) ∧
    (sortParts (uploadedParts etag (totalParts size) order)).map
        PartETag.PartNumber
      = (List.range (totalParts size)).map (fun i => i + 1) ∧
    completeXmlBody (sortParts (uploadedParts etag (totalParts size) order))
      = completeXmlBody
          ((List.range (totalParts size)).map (fun i => ⟨i + 1, etag i⟩)) := by
  have hceil : PART_SIZE * (totalParts size - 1) < size ∧
      size ≤ PART_SIZE * totalParts size := by
    simp only [totalParts, PART_SIZE, MULTIPART_THRESHOLD] at *
    omega
  have hsorted : sortParts (uploadedParts etag (totalParts size) order)
      = (List.range (totalParts size)).map (fun i => ⟨i + 1, etag i⟩) := by
    rw [uploadedParts, asyncPoolResults_eq _ _ _ _ hp, sortParts_of_range]
  refine ⟨hceil, ?_, ?_, hsorted, ?_, ?_⟩
  · intro i hi
    have hle : i * PART_SIZE + PART_SIZE ≤ size := by
      have h1 : (i + 1) * PART_SIZE ≤ (totalParts size - 1) * PART_SIZE :=
        Nat.mul_le_mul_right _ (by omega)
      have h2 := hceil.1
      calc i * PART_SIZE + PART_SIZE = (i + 1) * PART_SIZE := by ring
        _ ≤ (totalParts size - 1) * PART_SIZE := h1
        _ = PART_SIZE * (totalParts size - 1) := by ring
        _ ≤ size := Nat.le_of_lt h2
    rw [partSliceLen, partEnd, partStart, min_eq_left hle]
    omega
  · have hn : 1 ≤ totalParts size := by
      have h := hsize
      simp only [totalParts, PART_SIZE]
      simp only [MULTIPART_THRESHOLD] at h
      omega
    have hge : size ≤ (totalParts size - 1) * PART_SIZE + PART_SIZE := by
      have h2 := hceil.2
      have hsplit : PART_SIZE * totalParts size
          = (totalParts size - 1) * PART_SIZE + PART_SIZE := by
        cases htp : totalParts size with
        | zero => omega
        | succ m =>
          simp only [Nat.succ_sub_one]
          ring
      omega
    rw [partSliceLen, partEnd, partStart, min_eq_right hge,
      Nat.mul_comm PART_SIZE (totalParts size - 1)]
  · rw [hsorted, List.map_map]
    rfl
  · rw [hsorted]

/-- Witness for C5 at `size = 100 MB + 1` (11 parts, last part 1 byte)
with the completions arriving in reverse order. -/
theorem multipart_parts_spec_witness :
    sortParts (uploadedParts (fun i => toString i) (totalParts 104857601)
        ((List.range 11).reverse))
      = (List.range (totalParts 104857601)).map
          (fun i => ⟨i + 1, toString i⟩) ∧
    partSliceLen 104857601 (totalParts 104857601 - 1) = 1 := by
  have htp : totalParts 104857601 = 11 := by decide
  have h := multipart_parts_spec 104857601 (fun i => toString i)
    ((List.range 11).reverse) (by decide)
    (by rw [htp]; exact List.reverse_perm _)
  refine ⟨h.2.2.2.1, ?_⟩
  have := h.2.2.1
  rw [htp] at this ⊢
  rw [this]
  decide

/-! ## Claim C6: single-versus-multipart routing -/

/-- A JavaScript `File` as this module reads it: name, content bytes and
MIME type (`file.type` may be the empty string). -/
structure JsFile where
  name : String
  content : List Nat
  type : String := ""

def fileSize (f : JsFile) : Nat := f.content.length

inductive UploadRoute
  | single
  | multipart
  deriving DecidableEq

/-- `if (file.size > MULTIPART_THRESHOLD) ... else ...` of
`uploadFileToR2`. -/
def uploadRoute (size : Nat) : UploadRoute :=
  if MULTIPART_THRESHOLD < size then .multipart else .single

/-- The header object built by the single-object path (source lines
318-323): the content hash header carries the digest of the whole file
body, and the content type falls back to `application/octet-stream`. -/
def singleUploadHeaders (H : HashModel) (config : R2Config) (f : JsFile)
    (amzDate : String) : List (String × String) :=
  [("Host", config.accountId ++ ".r2.cloudflarestorage.com"),
   ("X-Amz-Date", amzDate),
   ("X-Amz-Content-Sha256", sha256Hex H f.content),
   ("Content-Type", if f.type = "" then "application/octet-stream" else f.type)]

/-- The authorization value the single-object path computes for its one
whole-file PUT (signed over the full file body as payload). -/
def singleUploadAuthorization (H : HashModel) (config : R2Config)
    (f : JsFile) (fileName amzDate : String) : String :=
  createAwsSignature H "PUT" ("/" ++ config.bucketName ++ "/" ++ fileName)
    (singleUploadHeaders H config f amzDate) config f.content []

/-- C6: the single-object path is taken exactly for sizes at or below
100 MB = 104857600 bytes — a file of exactly 100 MB takes the single
PUT — and the multipart path exactly for sizes strictly above; on the
single path the `X-Amz-Content-Sha256` header is the hex digest of the
full file body. -/
theorem uploadRoute_spec (size : Nat) (H : HashModel) (config : R2Config)
    (f : JsFile) (amzDate : String) :
    (uploadRoute size = .single ↔ size ≤ 104857600) ∧
    (uploadRoute size = .multipart ↔ 104857600 < size) ∧
    uploadRoute 104857600 = .single ∧
    (singleUploadHeaders H config f amzDate).lookup "X-Amz-Content-Sha256"
      = some (sha256Hex H f.content) := by
  refine ⟨?_, ?_, by decide, rfl⟩
  · rw [uploadRoute]
    split
    · rename_i h
      simp only [MULTIPART_THRESHOLD] at h
      constructor
      · intro hc
        exact absurd hc (by decide)
      · intro hc
        omega
    · rename_i h
      simp only [MULTIPART_THRESHOLD] at h
      constructor
      · intro _
        omega
      · intro _
        rfl
  · rw [uploadRoute]
    split
    · rename_i h
      simp only [MULTIPART_THRESHOLD] at h
      constructor
      · intro _
        omega
      · intro _
        rfl
    · rename_i h
      simp only [MULTIPART_THRESHOLD] at h
      constructor
      · intro hc
        exact absurd hc (by decide)
      · intro hc
        omega

/-! ## Claim C7: weighted progress aggregation (source lines 279-294) -/

/-- `partSize` as recomputed inside the progress callback: the last part
counts its remainder size, every other part counts as `PART_SIZE`. -/
def progressPartSize (size n i : Nat) : Nat :=
  if i = n - 1 then size - i * PART_SIZE else PART_SIZE

/-- `totalUploadedBytes`: the reduce over the progress array,
`Σ (prog[i] / 100) × partSize(i)`.  Progress values are percentages;
JavaScript number arithmetic is modelled exactly over the rationals. -/
def totalUploadedBytes (size n : Nat) (prog : Nat → ℚ) : ℚ :=
  ∑ i ∈ Finset.range n, prog i / 100 * (progressPartSize size n i : ℚ)

/-- `totalProgress = (totalUploadedBytes / file.size) * 100`. -/
def totalProgress (size n : Nat) (prog : Nat → ℚ) : ℚ :=
  totalUploadedBytes size n prog / (size : ℚ) * 100

/-- Ceiling-division characterisation of the part count. -/
theorem totalParts_ceil (size : Nat) (hsize : 0 < size) :
    PART_SIZE * (totalParts size - 1) < size ∧
    size ≤ PART_SIZE * totalParts size ∧ 1 ≤ totalParts size := by
  simp only [totalParts, PART_SIZE] at *
  omega

/-- The per-part sizes used by the progress aggregation add up to the file
size. -/
theorem sum_progressPartSize (size : Nat) (hsize : 0 < size) :
    ∑ i ∈ Finset.range (totalParts size),
      progressPartSize size (totalParts size) i = size := by
  obtain ⟨hlt, hle, hn⟩ := totalParts_ceil size hsize
  obtain ⟨m, hm⟩ : ∃ m, totalParts size = m + 1 :=
    ⟨totalParts size - 1, by omega⟩
  rw [hm, Finset.sum_range_succ]
  have hconst : ∀ i ∈ Finset.range m,
      progressPartSize size (m + 1) i = PART_SIZE := by
    intro i hi
    rw [progressPartSize, if_neg (by simp at hi; omega)]
  rw [Finset.sum_congr rfl hconst, Finset.sum_const, Finset.card_range,
    smul_eq_mul, progressPartSize, if_pos (by omega)]
  have hmle : m * PART_SIZE ≤ size := by
    have : PART_SIZE * (m + 1 - 1) < size := hm ▸ hlt
    simp only [Nat.add_sub_cancel] at this
    calc m * PART_SIZE = PART_SIZE * m := Nat.mul_comm _ _
      _ ≤ size := Nat.le_of_lt this
  omega

/-- C7: if every per-part progress value lies in `[0, 100]`, the
aggregated size-weighted total progress never exceeds 100; and it is
monotone under any pointwise increase of the per-part progress values, so
it is non-decreasing along a monotone sequence of per-part progress
events. -/
theorem weighted_progress_spec (size n : Nat) (prog prog2 : Nat → ℚ)
    (hsize : MULTIPART_THRESHOLD < size) (hn : n = totalParts size)
    (hb0 : ∀ i, i < n → 0 ≤ prog i) (hb1 : ∀ i, i < n → prog i ≤ 100)
    (hmono : ∀ i, i < n → prog i ≤ prog2 i)
    (hb2 : ∀ i, i < n → prog2 i ≤ 100) :
    totalProgress size n prog ≤ 100 ∧
    totalProgress size n prog ≤ totalProgress size n prog2 := by
  have hpos0 : 0 < size := by
    simp only [MULTIPART_THRESHOLD] at hsize
    omega
  have hpos : (0 : ℚ) < (size : ℚ) := by exact_mod_cast hpos0
  have hsum : ∑ i ∈ Finset.range n,
      (progressPartSize size n i : ℚ) = (size : ℚ) := by
    subst hn
    rw [← Nat.cast_sum, sum_progressPartSize size hpos0]
  have htub : totalUploadedBytes size n prog ≤ (size : ℚ) := by
    rw [totalUploadedBytes, ← hsum]
    apply Finset.sum_le_sum
    intro i hi
    have hc : (0 : ℚ) ≤ (progressPartSize size n i : ℚ) := Nat.cast_nonneg _
    have hd : prog i / 100 ≤ 1 :=
      (div_le_one (by norm_num)).mpr (hb1 i (Finset.mem_range.mp hi))
    calc prog i / 100 * (progressPartSize size n i : ℚ)
        ≤ 1 * (progressPartSize size n i : ℚ) :=
          mul_le_mul_of_nonneg_right hd hc
      _ = (progressPartSize size n i : ℚ) := one_mul _
  constructor
  · rw [totalProgress]
    have h1 : totalUploadedBytes size n prog / (size : ℚ) ≤ 1 :=
      div_le_one_of_le htub (le_of_lt hpos)
    calc totalUploadedBytes size n prog / (size : ℚ) * 100
        ≤ 1 * 100 := mul_le_mul_of_nonneg_right h1 (by norm_num)
      _ = 100 := one_mul _
  · have h2 : totalUploadedBytes size n prog
        ≤ totalUploadedBytes size n prog2 := by
      apply Finset.sum_le_sum
      intro i hi
      exact mul_le_mul_of_nonneg_right
        ((div_le_div_right (by norm_num)).mpr
          (hmono i (Finset.mem_range.mp hi)))
        (Nat.cast_nonneg _)
    rw [totalProgress, totalProgress]
    exact mul_le_mul_of_nonneg_right
      ((div_le_div_right hpos).mpr h2) (by norm_num)

/-- Witness for C7 at a 100 MB + 1 byte file (11 parts), with every part
at 50 percent and then at 60 percent. -/
theorem weighted_progress_spec_witness :
    totalProgress 104857601 11 (fun _ => (50 : ℚ)) ≤ 100 ∧
    totalProgress 104857601 11 (fun _ => (50 : ℚ))
      ≤ totalProgress 104857601 11 (fun _ => (60 : ℚ)) :=
  weighted_progress_spec 104857601 11 _ _ (by decide) (by decide)
    (fun i _ => by norm_num) (fun i _ => by norm_num)
    (fun i _ => by norm_num) (fun i _ => by norm_num)

/-! ## Claim C8: the presigned URL generator (source lines 197-242) -/

/-- JavaScript truthiness of the optional `publicUrl`: absent or empty is
falsy. -/
def jsTruthy : Option String → Bool
  | none => false
  | some s => !(s == "")

/-- `u.replace(/\/$/, "")`: one trailing slash is stripped. -/
def stripTrailingSlash (u : String) : String :=
  if u.data.getLast? = some '/' then String.mk (u.data.take (u.data.length - 1))
  else u

/-- The query parameters of the presigned URL, in the order the source
lists them, joined by `&`. -/
def presignQueryParams (config : R2Config) (amzDate : String)
    (expiresIn : Nat) : String :=
  let region := "auto"
  let service := "s3"
  let dateStamp := strTake amzDate 8
  let credentialScope :=
    dateStamp ++ "/" ++ region ++ "/" ++ service ++ "/aws4_request"
  let credential :=
    encodeURIComponent (config.accessKeyId ++ "/" ++ credentialScope)
  "X-Amz-Algorithm=AWS4-HMAC-SHA256" ++ "&" ++
    ("X-Amz-Credential=" ++ credential) ++ "&" ++
    ("X-Amz-Date=" ++ amzDate) ++ "&" ++
    ("X-Amz-Expires=" ++ toString expiresIn) ++ "&" ++
    "X-Amz-SignedHeaders=host"

/-- The canonical request of the presigned URL: signed headers are only
`host` and the payload hash is the literal `UNSIGNED-PAYLOAD` sentinel. -/
def presignCanonicalRequest (config : R2Config) (fileName amzDate : String)
    (expiresIn : Nat) : String :=
  let path := "/" ++ config.bucketName ++ "/" ++ fileName
  let queryParams := presignQueryParams config amzDate expiresIn
  let canonicalHeaders :=
    "host:" ++ config.accountId ++ ".r2.cloudflarestorage.com" ++ "\n"
  let signedHeaders := "host"
  let payloadHash := "UNSIGNED-PAYLOAD"
  "GET" ++ "\n" ++ path ++ "\n" ++ queryParams ++ "\n" ++ canonicalHeaders ++
    "\n" ++ signedHeaders ++ "\n" ++ payloadHash

/-- The `X-Amz-Signature` value of the presigned URL. -/
def presignSignature (H : HashModel) (config : R2Config)
    (fileName amzDate : String) (expiresIn : Nat) : String :=
  let region := "auto"
  let service := "s3"
  let dateStamp := strTake amzDate 8
  let credentialScope :=
    dateStamp ++ "/" ++ region ++ "/" ++ service ++ "/aws4_request"
  let stringToSign := "AWS4-HMAC-SHA256" ++ "\n" ++ amzDate ++ "\n" ++
    credentialScope ++ "\n" ++
    sha256Str H (presignCanonicalRequest config fileName amzDate expiresIn)
  hmacSha256 H
    (getSignatureKey H config.secretAccessKey dateStamp region service)
    stringToSign

/-- `generatePresignedUrl(fileName, config, expiresIn = 600)`.  The
timestamp (`getAmzDate()`, read from the clock) is passed explicitly. -/
def generatePresignedUrl (H : HashModel) (fileName : String)
    (config : R2Config) (amzDate : String) (expiresIn : Nat := 600) :
    String :=
  if jsTruthy config.publicUrl then
    stripTrailingSlash (config.publicUrl.getD "") ++ "/" ++ fileName
  else
    let endpoint :=
      "https://" ++ config.accountId ++ ".r2.cloudflarestorage.com"
    let path := "/" ++ config.bucketName ++ "/" ++ fileName
    endpoint ++ path ++ "?" ++ presignQueryParams config amzDate expiresIn ++
      "&X-Amz-Signature=" ++
      presignSignature H config fileName amzDate expiresIn

/-- C8: with a (truthy) `publicUrl` configured the result is
`publicUrl/key` with no signature computed at all; otherwise the result is
a GET URL whose query string carries the algorithm, credential, date,
expiry and signed-header list followed by the signature, where the
canonical request restricts the signed headers to `host` and uses the
literal `UNSIGNED-PAYLOAD` sentinel as payload hash; and the `expiresIn`
parameter defaults to 600 seconds. -/
theorem generatePresignedUrl_spec (H : HashModel) (fileName : String)
    (config : R2Config) (amzDate : String) (expiresIn : Nat) :
    (∀ u, config.publicUrl = some u → u ≠ "" →
      generatePresignedUrl H fileName config amzDate expiresIn
        = stripTrailingSlash u ++ "/" ++ fileName) ∧
    (jsTruthy config.publicUrl = false →
      generatePresignedUrl H fileName config amzDate expiresIn
        = "https://" ++ config.accountId ++ ".r2.cloudflarestorage.com" ++
          ("/" ++ config.bucketName ++ "/" ++ fileName) ++ "?" ++
          presignQueryParams config amzDate expiresIn ++
          "&X-Amz-Signature=" ++
          presignSignature H config fileName amzDate expiresIn) ∧
    presignQueryParams config amzDate expiresIn
      = "X-Amz-Algorithm=AWS4-HMAC-SHA256" ++ "&" ++
        ("X-Amz-Credential=" ++
          encodeURIComponent (config.accessKeyId ++ "/" ++
            (strTake amzDate 8 ++ "/" ++ "auto" ++ "/" ++ "s3" ++
              "/aws4_request"))) ++ "&" ++
        ("X-Amz-Date=" ++ amzDate) ++ "&" ++
        ("X-Amz-Expires=" ++ toString expiresIn) ++ "&" ++
        "X-Amz-SignedHeaders=host" ∧
    presignCanonicalRequest config fileName amzDate expiresIn
      = "GET" ++ "\n" ++ ("/" ++ config.bucketName ++ "/" ++ fileName) ++
        "\n" ++ presignQueryParams config amzDate expiresIn ++ "\n" ++
        ("host:" ++ config.accountId ++ ".r2.cloudflarestorage.com" ++
          "\n") ++ "\n" ++ "host" ++ "\n" ++ "UNSIGNED-PAYLOAD" ∧
    generatePresignedUrl H fileName config amzDate
      = generatePresignedUrl H fileName config amzDate 600 := by
  refine ⟨?_, ?_, rfl, rfl, rfl⟩
  · intro u hu hne
    have ht : jsTruthy config.publicUrl = true := by
      rw [hu]
      simp [jsTruthy, hne]
    rw [generatePresignedUrl, if_pos ht, hu]
    rfl
  · intro hf
    rw [generatePresignedUrl, if_neg (by rw [hf]; exact Bool.false_ne_true)]

/-- A configuration with a custom public URL (with a trailing slash, which
the generator strips). -/
def cfgPub : R2Config :=
  ⟨"acct", "AKID", "SECRET", "bucket", some "https://cdn.example.com/"⟩

/-- Witness for C8 at a public-URL configuration and at a plain
configuration. -/
theorem generatePresignedUrl_spec_witness :
    generatePresignedUrl hashId "f.txt" cfgPub "20250101T000000Z" 600
      = "https://cdn.example.com/f.txt" ∧
    generatePresignedUrl hashId "f.txt" cfg0 "20250101T000000Z" 600
      = "https://" ++ "acct" ++ ".r2.cloudflarestorage.com" ++
        ("/" ++ "bucket" ++ "/" ++ "f.txt") ++ "?" ++
        presignQueryParams cfg0 "20250101T000000Z" 600 ++
        "&X-Amz-Signature=" ++
        presignSignature hashId cfg0 "f.txt" "20250101T000000Z" 600 := by
  constructor
  · have h := (generatePresignedUrl_spec hashId "f.txt" cfgPub
      "20250101T000000Z" 600).1 "https://cdn.example.com/" rfl (by decide)
    rw [h]
    decide
  · exact (generatePresignedUrl_spec hashId "f.txt" cfg0
      "20250101T000000Z" 600).2.1 rfl

/-! ## Claim C9: the file fingerprint (source lines 14-59) -/

/-- The 1 MB sampling chunk size local to `calculatePartialHash`. -/
def chunkSize : Nat := 1024 * 1024

/-- `file.slice(start, stop).arrayBuffer()`: bytes in `[start, stop)`,
clamped to the file length. -/
def jsSlice (content : List Nat) (start stop : Nat) : List Nat :=
  (content.take stop).drop start

/-- `calculatePartialHash`: the first 1 MB, a middle 1 MB when
`middle > chunkSize`, and the last 1 MB when `size > 2 × chunkSize`,
prefixed with the UTF-8 bytes of `name-size` and digested together.
(`file.slice(Math.max(0, size - chunkSize))` is a suffix slice; natural
subtraction models the `Math.max(0, ..)` clamp.) -/
def calculatePartialHash (H : HashModel) (f : JsFile) : String :=
  let size := f.content.length
  let middle := size / 2
  let chunks :=
    [jsSlice f.content 0 chunkSize]
    ++ (if chunkSize < middle then
          [jsSlice f.content middle (middle + chunkSize)] else [])
    ++ (if 2 * chunkSize < size then
          [f.content.drop (size - chunkSize)] else [])
  let metadata := utf8Encode (f.name ++ "-" ++ toString size)
  sha256Hex H (metadata ++ chunks.flatten)

/-- `calculateFileHash`: full-file digest at or below 50 MB, sampling
digest above. -/
def calculateFileHash (H : HashModel) (f : JsFile) : String :=
  if 50 * 1024 * 1024 < f.content.length then calculatePartialHash H f
  else sha256Hex H f.content

/-- C9: above 50 MB = 52428800 bytes, the result is the digest of the
UTF-8 bytes of `name-size` followed by the first 1 MB, the middle 1 MB
and the last 1 MB of the content (the guard conditions for including the
middle and last chunks always hold at this size); at or below 50 MB it is
the digest
of the entire content. -/
theorem calculateFileHash_spec (H : HashModel) (f : JsFile) :
    (52428800 < f.content.length →
      calculateFileHash H f
        = sha256Hex H
            (utf8Encode (f.name ++ "-" ++ toString f.content.length)
              ++ (jsSlice f.content 0 chunkSize
                  ++ (jsSlice f.content (f.content.length / 2)
                        (f.content.length / 2 + chunkSize)
                      ++ f.content.drop (f.content.length - chunkSize))))) ∧
    (f.content.length ≤ 52428800 →
      calculateFileHash H f = sha256Hex H f.content) := by
  constructor
  · intro h
    rw [calculateFileHash, if_pos (by omega)]
    rw [calculatePartialHash]
    have h1 : chunkSize < f.content.length / 2 := by
      simp only [chunkSize]
      omega
    have h2 : 2 * chunkSize < f.content.length := by
      simp only [chunkSize]
      omega
    rw [if_pos h1, if_pos h2]
    simp
  · intro h
    rw [calculateFileHash, if_neg (by omega)]

/-- A file one byte above the 50 MB sampling threshold. -/
def bigFile : JsFile := ⟨"big.bin", List.replicate 52428801 0, ""⟩

/-- A small file. -/
def smallFile : JsFile := ⟨"s.bin", [1, 2, 3], ""⟩

/-- Witness for C9 at a 50 MB + 1 byte file and at a 3 byte file. -/
theorem calculateFileHash_spec_witness :
    52428800 < bigFile.content.length ∧
    calculateFileHash hashId bigFile
      = sha256Hex hashId
          (utf8Encode (bigFile.name ++ "-" ++ toString bigFile.content.length)
            ++ (jsSlice bigFile.content 0 chunkSize
                ++ (jsSlice bigFile.content (bigFile.content.length / 2)
                      (bigFile.content.length / 2 + chunkSize)
                    ++ bigFile.content.drop
                        (bigFile.content.length - chunkSize)))) ∧
    calculateFileHash hashId smallFile = sha256Hex hashId smallFile.content := by
  have hlen : 52428800 < bigFile.content.length := by
    show 52428800 < (List.replicate 52428801 0).length
    rw [List.length_replicate]
    omega
  have hsmall : smallFile.content.length ≤ 52428800 := by
    show (3 : Nat) ≤ 52428800
    omega
  exact ⟨hlen, (calculateFileHash_spec hashId bigFile).1 hlen,
    (calculateFileHash_spec hashId smallFile).2 hsmall⟩

/-! ## Claim C10: `sanitizeFileName` (source lines 70-85) -/

/-- The unsafe characters removed by `sanitizeFileName`: the class of
slash (47), backslash (92), colon (58), asterisk (42), question mark
(63), double quote (34), angle brackets (60, 62), pipe (124), the C0
control range and DEL. -/
def badChar (c : Char) : Bool :=
  let n := c.toNat
  n = 47 || n = 92 || n = 58 || n = 42 || n = 63 || n = 34 || n = 60 ||
  n = 62 || n = 124 || n < 0x20 || n = 0x7f

/-- Dot (46) or hyphen (45), the characters trimmed at both ends. -/
def isDotDash (c : Char) : Bool :=
  c.toNat = 46 || c.toNat = 45

/-- Worker for the run collapses: replaces every maximal run of
characters satisfying `p` by the single character `r`; `inRun` records
whether the previous character belonged to a run. -/
def collapseRunsGo (p : Char → Bool) (r : Char) : Bool → List Char → List Char
  | _, [] => []
  | inRun, c :: cs =>
    if p c then
      if inRun then collapseRunsGo p r true cs
      else r :: collapseRunsGo p r true cs
    else c :: collapseRunsGo p r false cs

/-- Replace every maximal run of characters satisfying `p` by `r`.  This
is the effect of `replace(/X+/g, "r")`; it is also the effect of each
two-or-more repetition collapse of the source (the dot and hyphen
replaces), whose output coincides with the full run collapse because a
singleton run is replaced by itself there. -/
def collapseRuns (p : Char → Bool) (r : Char) (l : List Char) : List Char :=
  collapseRunsGo p r false l

/-- `replace(/^[.-]+|[.-]+$/g, "")`: strip leading and trailing dots and
hyphens. -/
def trimDotsDashes (l : List Char) : List Char :=
  ((l.dropWhile isDotDash).reverse.dropWhile isDotDash).reverse

/-- The sanitized name before percent-encoding: whitespace runs become
hyphens, unsafe characters are removed, dot runs and hyphen runs are
collapsed, dots and hyphens are trimmed from both ends, and an empty
result falls back to `unnamed-file`. -/
def sanitizeCore (fileName : String) : List Char :=
  let noSpaces := collapseRuns isJsSpace '-' fileName.data
  let safeChars := noSpaces.filter (fun c => !badChar c)
  let result := collapseRuns (fun c => c == '-') '-'
    (collapseRuns (fun c => c == '.') '.' safeChars)
  let trimmed := trimDotsDashes result
  if trimmed = [] then "unnamed-file".data else trimmed

/-- `sanitizeFileName`: the sanitized core, percent-encoded. -/
def sanitizeFileName (fileName : String) : String :=
  String.mk (encodeURIComponentList (sanitizeCore fileName))

/-- The object key `uploadFileToR2` sanitizes (source lines 256-258):
`customName || file.name`, run through `sanitizeFileName`. -/
def objectKeyFor (customName : Option String) (fileName : String) : String :=
  sanitizeFileName (match customName with
    | some c => if c = "" then fileName else c
    | none => fileName)

/-- Upper-case hexadecimal digit characters `0-9 A-F`. -/
def isUpperHexDigit (c : Char) : Bool :=
  (48 ≤ c.toNat && c.toNat ≤ 57) || (65 ≤ c.toNat && c.toNat ≤ 70)

theorem hexDigitCharUpper_isUpper :
    ∀ n, n < 16 → isUpperHexDigit (hexDigitCharUpper n) = true := by
  decide

theorem mem_percentByte (b : Nat) :
    ∀ c ∈ percentByte b, c = '%' ∨ isUpperHexDigit c = true := by
  intro c hc
  simp only [percentByte, List.mem_cons, List.not_mem_nil, or_false] at hc
  rcases hc with h | h | h
  · exact Or.inl h
  · exact Or.inr (h ▸ hexDigitCharUpper_isUpper _ (by omega))
  · exact Or.inr (h ▸ hexDigitCharUpper_isUpper _ (by omega))

theorem utf8Bytes_cons (c : Char) : ∃ b bs, utf8Bytes c = b :: bs := by
  simp only [utf8Bytes]
  split
  · exact ⟨_, _, rfl⟩
  · split
    · exact ⟨_, _, rfl⟩
    · split
      · exact ⟨_, _, rfl⟩
      · exact ⟨_, _, rfl⟩

theorem encodeChar_shape (c : Char) :
    (isUriUnreserved c = true ∧ encodeChar c = [c]) ∨
    (isUriUnreserved c = false ∧ ∃ rest, encodeChar c = '%' :: rest) := by
  by_cases h : isUriUnreserved c
  · exact Or.inl ⟨h, by rw [encodeChar, if_pos h]⟩
  · refine Or.inr ⟨Bool.eq_false_iff.mpr h, ?_⟩
    rw [encodeChar, if_neg h]
    obtain ⟨b, bs, hb⟩ := utf8Bytes_cons c
    rw [hb, List.map_cons, List.flatten_cons]
    exact ⟨_, rfl⟩

theorem encodeChar_ne_nil (c : Char) : encodeChar c ≠ [] := by
  rcases encodeChar_shape c with ⟨_, h⟩ | ⟨_, _, h⟩ <;> simp [h]

theorem encodeChar_getLast (c : Char) :
    ∃ d, (encodeChar c).getLast? = some d ∧
      (d = c ∨ isUpperHexDigit d = true) := by
  by_cases h : isUriUnreserved c
  · exact ⟨c, by rw [encodeChar, if_pos h]; rfl, Or.inl rfl⟩
  · rw [encodeChar, if_neg h]
    simp only [utf8Bytes]
    split
    · exact ⟨hexDigitCharUpper (c.toNat % 16), rfl,
        Or.inr (hexDigitCharUpper_isUpper _ (by omega))⟩
    · split
      · exact ⟨hexDigitCharUpper ((0x80 + c.toNat % 0x40) % 16), rfl,
          Or.inr (hexDigitCharUpper_isUpper _ (by omega))⟩
      · split
        · exact ⟨hexDigitCharUpper ((0x80 + c.toNat % 0x40) % 16), rfl,
            Or.inr (hexDigitCharUpper_isUpper _ (by omega))⟩
        · exact ⟨hexDigitCharUpper ((0x80 + c.toNat % 0x40) % 16), rfl,
            Or.inr (hexDigitCharUpper_isUpper _ (by omega))⟩

theorem encList_ne_nil (l : List Char) (h : l ≠ []) :
    encodeURIComponentList l ≠ [] := by
  cases l with
  | nil => exact absurd rfl h
  | cons c cs =>
    rw [encodeURIComponentList, List.map_cons, List.flatten_cons]
    intro hctr
    exact encodeChar_ne_nil c (List.append_eq_nil.mp hctr).1

theorem mem_encList (l : List Char) :
    ∀ c ∈ encodeURIComponentList l,
      (c ∈ l ∧ isUriUnreserved c = true) ∨ c = '%' ∨
        isUpperHexDigit c = true := by
  intro c hc
  rw [encodeURIComponentList, List.mem_flatten] at hc
  obtain ⟨sub, hsub, hcsub⟩ := hc
  rw [List.mem_map] at hsub
  obtain ⟨a, ha, rfl⟩ := hsub
  rcases encodeChar_shape a with ⟨hu, he⟩ | ⟨hu, rest, he⟩
  · rw [he, List.mem_singleton] at hcsub
    subst hcsub
    exact Or.inl ⟨ha, hu⟩
  · rw [encodeChar, if_neg (by simp [hu]), List.mem_flatten] at hcsub
    obtain ⟨pb, hpb, hcpb⟩ := hcsub
    rw [List.mem_map] at hpb
    obtain ⟨b, _, rfl⟩ := hpb
    exact Or.inr (mem_percentByte b c hcpb)

theorem encList_head (c : Char) (cs : List Char) :
    ∃ d rest, encodeURIComponentList (c :: cs) = d :: rest ∧
      (d = c ∨ d = '%') := by
  rw [encodeURIComponentList, List.map_cons, List.flatten_cons]
  rcases encodeChar_shape c with ⟨_, he⟩ | ⟨_, r, he⟩ <;> rw [he]
  · exact ⟨c, _, rfl, Or.inl rfl⟩
  · exact ⟨'%', _, rfl, Or.inr rfl⟩

theorem encList_getLast (l : List Char) (hne : l ≠ []) :
    ∃ d, (encodeURIComponentList l).getLast? = some d ∧
      (l.getLast? = some d ∨ isUpperHexDigit d = true) := by
  induction l with
  | nil => exact absurd rfl hne
  | cons c cs ih =>
    rw [encodeURIComponentList, List.map_cons, List.flatten_cons]
    by_cases hcs : cs = []
    · subst hcs
      simp only [List.map_nil, List.flatten_nil, List.append_nil]
      obtain ⟨d, hd, hdp⟩ := encodeChar_getLast c
      refine ⟨d, hd, hdp.imp (fun h => ?_) id⟩
      rw [h]
      rfl
    · obtain ⟨d, hd, hdp⟩ := ih hcs
      refine ⟨d, ?_, ?_⟩
      · rw [show (cs.map encodeChar).flatten = encodeURIComponentList cs
          from rfl]
        rw [List.getLast?_append_of_ne_nil]
        · exact hd
        · exact encList_ne_nil cs hcs
      · refine hdp.imp (fun h => ?_) id
        cases cs with
        | nil => exact absurd rfl hcs
        | cons b bs => rw [List.getLast?_cons_cons]; exact h

theorem mem_collapseRunsGo (p : Char → Bool) (r : Char) :
    ∀ (l : List Char) (b : Bool), ∀ c ∈ collapseRunsGo p r b l,
      c = r ∨ (c ∈ l ∧ p c = false) := by
  intro l
  induction l with
  | nil =>
    intro b c hc
    simp [collapseRunsGo] at hc
  | cons a as ih =>
    intro b c hc
    simp only [collapseRunsGo] at hc
    by_cases h : p a
    · rw [if_pos h] at hc
      by_cases hb : b = true
      · rw [if_pos hb] at hc
        rcases ih true c hc with h1 | ⟨h2, h3⟩
        · exact Or.inl h1
        · exact Or.inr ⟨List.mem_cons_of_mem a h2, h3⟩
      · rw [if_neg hb] at hc
        rcases List.mem_cons.mp hc with rfl | hc2
        · exact Or.inl rfl
        · rcases ih true c hc2 with h1 | ⟨h2, h3⟩
          · exact Or.inl h1
          · exact Or.inr ⟨List.mem_cons_of_mem a h2, h3⟩
    · rw [if_neg h] at hc
      rcases List.mem_cons.mp hc with rfl | hc2
      · exact Or.inr ⟨List.mem_cons_self _ _, Bool.eq_false_iff.mpr h⟩
      · rcases ih false c hc2 with h1 | ⟨h2, h3⟩
        · exact Or.inl h1
        · exact Or.inr ⟨List.mem_cons_of_mem a h2, h3⟩

theorem mem_collapseRuns (p : Char → Bool) (r : Char) (l : List Char) :
    ∀ c ∈ collapseRuns p r l, c = r ∨ (c ∈ l ∧ p c = false) :=
  mem_collapseRunsGo p r l false

theorem head?_dropWhile (p : Char → Bool) :
    ∀ (l : List Char) (c : Char), (l.dropWhile p).head? = some c →
      p c = false := by
  intro l
  induction l with
  | nil =>
    intro c hc
    simp [List.dropWhile] at hc
  | cons a as ih =>
    intro c hc
    rw [List.dropWhile_cons] at hc
    by_cases h : p a
    · rw [if_pos h] at hc
      exact ih c hc
    · rw [if_neg h] at hc
      simp only [List.head?_cons, Option.some.injEq] at hc
      subst hc
      exact Bool.eq_false_iff.mpr h

theorem getLast?_dropWhile (p : Char → Bool) (l : List Char)
    (h : l.dropWhile p ≠ []) : (l.dropWhile p).getLast? = l.getLast? := by
  conv_rhs => rw [← List.takeWhile_append_dropWhile p l]
  rw [List.getLast?_append_of_ne_nil]
  exact h

theorem trim_head (l : List Char) :
    ∀ c, (trimDotsDashes l).head? = some c → isDotDash c = false := by
  intro c hc
  rw [trimDotsDashes, List.head?_reverse] at hc
  have hne : (List.dropWhile isDotDash
      (List.dropWhile isDotDash l).reverse) ≠ [] := by
    intro hctr
    rw [hctr] at hc
    simp at hc
  rw [getLast?_dropWhile _ _ hne, List.getLast?_reverse] at hc
  exact head?_dropWhile _ _ _ hc

theorem trim_getLast (l : List Char) :
    ∀ c, (trimDotsDashes l).getLast? = some c → isDotDash c = false := by
  intro c hc
  rw [trimDotsDashes, List.getLast?_reverse] at hc
  exact head?_dropWhile _ _ _ hc

theorem mem_trim (l : List Char) : ∀ c ∈ trimDotsDashes l, c ∈ l := by
  intro c hc
  rw [trimDotsDashes, List.mem_reverse] at hc
  have h1 := (List.dropWhile_sublist isDotDash).subset hc
  rw [List.mem_reverse] at h1
  exact (List.dropWhile_sublist isDotDash).subset h1

theorem sanitizeCore_ne_nil (s : String) : sanitizeCore s ≠ [] := by
  simp only [sanitizeCore]
  split
  · decide
  · assumption

theorem sanitizeCore_chars (s : String) :
    ∀ c ∈ sanitizeCore s, badChar c = false ∧ isJsSpace c = false := by
  intro c hc
  simp only [sanitizeCore] at hc
  split at hc
  · exact (by decide :
      ∀ x ∈ "unnamed-file".data, badChar x = false ∧ isJsSpace x = false)
      c hc
  · have h1 := mem_trim _ c hc
    rcases mem_collapseRuns _ _ _ c h1 with rfl | ⟨h2, _⟩
    · exact ⟨by decide, by decide⟩
    · rcases mem_collapseRuns _ _ _ c h2 with rfl | ⟨h3, _⟩
      · exact ⟨by decide, by decide⟩
      · have hb : badChar c = false := by
          have := (List.mem_filter.mp h3).2
          simpa using this
        have hsp : isJsSpace c = false := by
          have h4 := (List.mem_filter.mp h3).1
          rcases mem_collapseRuns _ _ _ c h4 with rfl | ⟨_, h5⟩
          · decide
          · exact h5
        exact ⟨hb, hsp⟩

theorem sanitizeCore_head (s : String) :
    ∀ c, (sanitizeCore s).head? = some c → isDotDash c = false := by
  intro c hc
  simp only [sanitizeCore] at hc
  split at hc
  · rw [show ("unnamed-file".data.head?) = some 'u' from rfl] at hc
    obtain rfl := Option.some.inj hc
    decide
  · exact trim_head _ c hc

theorem sanitizeCore_getLast (s : String) :
    ∀ c, (sanitizeCore s).getLast? = some c → isDotDash c = false := by
  intro c hc
  simp only [sanitizeCore] at hc
  split at hc
  · rw [show ("unnamed-file".data.getLast?) = some 'e' from rfl] at hc
    obtain rfl := Option.some.inj hc
    decide
  · exact trim_getLast _ c hc

theorem upperHex_good (c : Char) (h : isUpperHexDigit c = true) :
    badChar c = false ∧ isJsSpace c = false ∧ isDotDash c = false := by
  simp only [isUpperHexDigit, Bool.or_eq_true, Bool.and_eq_true,
    decide_eq_true_eq] at h
  refine ⟨?_, ?_, ?_⟩ <;>
    · rw [Bool.eq_false_iff]
      intro hb
      simp only [badChar, isJsSpace, isDotDash, Bool.or_eq_true,
        Bool.and_eq_true, decide_eq_true_eq] at hb
      omega

theorem sanitizeFileName_chars (s : String) :
    ∀ c ∈ (sanitizeFileName s).data,
      badChar c = false ∧ isJsSpace c = false ∧
      (isUriUnreserved c = true ∨ c = '%' ∨ isUpperHexDigit c = true) := by
  intro c hc
  rw [sanitizeFileName] at hc
  rcases mem_encList _ c hc with ⟨hmem, hu⟩ | rfl | hx
  · obtain ⟨hb, hs⟩ := sanitizeCore_chars s c hmem
    exact ⟨hb, hs, Or.inl hu⟩
  · exact ⟨by decide, by decide, Or.inr (Or.inl rfl)⟩
  · obtain ⟨hb, hs, _⟩ := upperHex_good c hx
    exact ⟨hb, hs, Or.inr (Or.inr hx)⟩

theorem sanitizeFileName_head (s : String) :
    ∀ c, (sanitizeFileName s).data.head? = some c → isDotDash c = false := by
  intro c hc
  rw [sanitizeFileName] at hc
  obtain ⟨a, as, ha⟩ : ∃ a as, sanitizeCore s = a :: as := by
    cases hcs : sanitizeCore s with
    | nil => exact absurd hcs (sanitizeCore_ne_nil s)
    | cons a as => exact ⟨a, as, rfl⟩
  rw [ha] at hc
  obtain ⟨d, rest, hd, hdp⟩ := encList_head a as
  rw [hd] at hc
  simp only [List.head?_cons, Option.some.injEq] at hc
  subst hc
  rcases hdp with rfl | rfl
  · exact sanitizeCore_head s _ (by rw [ha]; rfl)
  · decide

theorem sanitizeFileName_getLast (s : String) :
    ∀ c, (sanitizeFileName s).data.getLast? = some c →
      isDotDash c = false := by
  intro c hc
  rw [sanitizeFileName] at hc
  obtain ⟨d, hd, hdp⟩ := encList_getLast _ (sanitizeCore_ne_nil s)
  rw [hd] at hc
  obtain rfl := Option.some.inj hc
  rcases hdp with hlast | hx
  · exact sanitizeCore_getLast s d hlast
  · exact (upperHex_good d hx).2.2

/-- C10: for every custom name and file name — including the empty string
and names consisting entirely of unsafe characters — the sanitized object
key used by `uploadFileToR2` is non-empty (falling back to
`unnamed-file`); contains none of the unsafe characters (path separators,
colon, the wildcards `*` and `?`, double quote, angle brackets, pipe,
control characters) and no whitespace (whitespace having been replaced by
hyphens); has no leading or trailing dot or hyphen; and is URL-safe —
every character is either unreserved or part of an upper-case
percent-escape.  The closed conjuncts evaluate the empty-name fallback, an
all-unsafe name, the space-to-hyphen replacement and leading-dot
trimming. -/
theorem sanitizeFileName_spec (customName : Option String)
    (fileName : String) :
    (objectKeyFor customName fileName).data ≠ [] ∧
    (∀ c ∈ (objectKeyFor customName fileName).data,
      badChar c = false ∧ isJsSpace c = false ∧
      (isUriUnreserved c = true ∨ c = '%' ∨ isUpperHexDigit c = true)) ∧
    (∀ c, (objectKeyFor customName fileName).data.head? = some c →
      isDotDash c = false) ∧
    (∀ c, (objectKeyFor customName fileName).data.getLast? = some c →
      isDotDash c = false) ∧
    sanitizeFileName "" = "unnamed-file" ∧
    sanitizeFileName "///" = "unnamed-file" ∧
    sanitizeFileName "a b.txt" = "a-b.txt" ∧
    sanitizeFileName "../../x" = "x" := by
  refine ⟨?_, ?_, ?_, ?_, by decide, by decide, by decide, by decide⟩
  · exact fun h => encList_ne_nil _ (sanitizeCore_ne_nil _) h
  · exact sanitizeFileName_chars _
  · exact sanitizeFileName_head _
  · exact sanitizeFileName_getLast _

/-- Witness for C10 at the custom name `my file.txt` (which sanitizes to
`my-file.txt`). -/
theorem sanitizeFileName_spec_witness :
    (objectKeyFor (some "my file.txt") "ignored").data ≠ [] ∧
    isDotDash 'm' = false :=
  ⟨(sanitizeFileName_spec (some "my file.txt") "ignored").1,
   (sanitizeFileName_spec (some "my file.txt") "ignored").2.2.1 'm'
     (by decide)⟩

end R2
